import Mathlib

/-!
Verification of the date/bitmap mapping logic of `generate_pizza.py`.

The script renders the fixed message "Pizza!" in a 5x7 pixel font, maps every
"on" pixel of the resulting 7-row bitmap to a calendar date
(origin + column weeks + row days), and creates one backdated empty git commit
per pixel repetition.

Modelling conventions:
* A calendar date is its proleptic Gregorian ordinal (an integer, as in
  Python's `datetime.date.toordinal`): day 1 is 0001-01-01, a Monday.
  Subtracting/adding a `timedelta(days = n)` is integer subtraction/addition.
* Python's `date.weekday()` (Monday = 0 .. Sunday = 6) on an ordinal `d`
  is `(d + 6) % 7`; Python's `%` on a positive modulus agrees with `Int.emod`.
* Bitmap rows are lists of characters (`'1'` / `'0'`), as the script builds
  them by string concatenation.  Indexing `bitmap[row][col]` is modelled with
  `List.getD`, with an off pixel (`'0'`) as the out-of-range default; the
  script only ever indexes in range.
* The fallible parts (`build_bitmap` raising `ValueError`, `main` exiting on a
  malformed `--start-sunday`) are modelled with `Except`: an `error` result
  means the run aborted there, so no commit dates were produced.
-/

namespace GeneratePizza

/-- A glyph: the 7 rows (Sunday..Saturday, top to bottom) of 5 pixels each,
as listed in the `FONT` dict of the script. -/
abbrev Glyph := List (List Char)

/-- Rows of `FONT["P"]` (source lines 30-38). -/
def glyphP : Glyph :=
  ["11110", "10001", "10001", "11110", "10000", "10000", "10000"].map String.toList

/-- Rows of `FONT["I"]` (source lines 39-47). -/
def glyphI : Glyph :=
  ["01110", "00100", "00100", "00100", "00100", "00100", "01110"].map String.toList

/-- Rows of `FONT["Z"]` (source lines 48-56). -/
def glyphZ : Glyph :=
  ["11111", "00001", "00010", "00100", "01000", "10000", "11111"].map String.toList

/-- Rows of `FONT["A"]` (source lines 57-65). -/
def glyphA : Glyph :=
  ["01110", "10001", "10001", "11111", "10001", "10001", "10001"].map String.toList

/-- Rows of `FONT["!"]` (source lines 66-74). -/
def glyphBang : Glyph :=
  ["00100", "00100", "00100", "00100", "00100", "00000", "00100"].map String.toList

/-- The final contents of the `FONT` dict: the five glyph entries plus the
lowercase aliases `FONT["p"] = FONT["P"]` etc. installed at source
lines 80-83.  `FONT.get ch` returning `None` for a missing key is `none`. -/
def FONT (c : Char) : Option Glyph :=
  if c = 'P' then some glyphP
  else if c = 'I' then some glyphI
  else if c = 'Z' then some glyphZ
  else if c = 'A' then some glyphA
  else if c = '!' then some glyphBang
  else if c = 'p' then some glyphP
  else if c = 'i' then some glyphI
  else if c = 'z' then some glyphZ
  else if c = 'a' then some glyphA
  else none

/-- The hardcoded message drawn by the script (source line 85). -/
def MESSAGE : List Char := "Pizza!".toList

/-- The loop body of `build_bitmap` (source lines 108-117): fold over the
remaining characters, carrying the 7 accumulated rows and the `first` flag.
Before each character except the first, `gap` off columns are appended to
every row; a character without a font pattern raises (modelled as
`Except.error` carrying the offending character). -/
def build_bitmap_go (gap : ℕ) : List Char → List (List Char) → Bool → Except Char (List (List Char))
  | [], rows, _ => Except.ok rows
  | ch :: rest, rows, first =>
    let rows1 := if first then rows else rows.map fun r => r ++ List.replicate gap '0'
    match FONT ch with
    | none => Except.error ch
    | some pattern =>
        build_bitmap_go gap rest (List.zipWith (fun r p => r ++ p) rows1 pattern) false

/-- `build_bitmap(message, gap)` (source lines 104-118): starts from 7 empty
rows and appends each character's pattern, with `gap` off columns between
consecutive characters. -/
def build_bitmap (message : List Char) (gap : ℕ) : Except Char (List (List Char)) :=
  build_bitmap_go gap message (List.replicate 7 []) true

/-- Python's `date.weekday()` (Monday = 0 .. Sunday = 6) on an ordinal. -/
def weekday (d : ℤ) : ℤ := (d + 6) % 7

/-- `get_sunday_of_week(date)` (source lines 98-102):
subtract `(date.weekday() + 1) % 7` days. -/
def get_sunday_of_week (d : ℤ) : ℤ := d - (weekday d + 1) % 7

/-- The default start Sunday when `--start-sunday` is omitted (source
lines 148-153): the Sunday of today's week minus `total_cols - 1` weeks.
The subtraction happens on Python ints, hence over `ℤ`. -/
def default_start_sunday (today : ℤ) (total_cols : ℕ) : ℤ :=
  get_sunday_of_week today - 7 * ((total_cols : ℤ) - 1)

/-- The explicit `--start-sunday` branch (source lines 156-160): a parsed
date that is not a Sunday is snapped back with `get_sunday_of_week` and a
warning is printed (the `Bool` records whether the warning fired). -/
def explicit_start_sunday (d : ℤ) : ℤ × Bool :=
  if weekday d ≠ 6 then (get_sunday_of_week d, true) else (d, false)

/-- `pixel_on = bitmap[row][col] == "1"` (source line 173). -/
def pixel_on (bitmap : List (List Char)) (row col : ℕ) : Bool :=
  (bitmap.getD row []).getD col '0' == '1'

/-- `total_cols = len(bitmap[0])` (source line 145). -/
def total_cols (bitmap : List (List Char)) : ℕ := (bitmap.headD []).length

/-- The scheduling loop (source lines 169-176): for each column left to
right and each row 0..6 top to bottom, emit
`start_sunday + col weeks + row days` when the pixel is on. -/
def pixelDates (bitmap : List (List Char)) (start_sunday : ℤ) : List ℤ :=
  (List.range (total_cols bitmap)).flatMap fun col =>
    (List.range 7).filterMap fun row =>
      if pixel_on bitmap row col then some (start_sunday + 7 * (col : ℤ) + (row : ℤ)) else none

/-- The two fatal errors of the planning phase: `build_bitmap`'s
`ValueError` for an unsupported character (source line 115) and the
`sys.exit(1)` on a malformed `--start-sunday` (source lines 161-163). -/
inductive MainError
  | unsupportedChar : Char → MainError
  | invalidDateFormat : MainError
deriving DecidableEq

/-- The planning phase of `main` (source lines 140-176), up to the list of
pixel dates that will receive commits.  `override` models the
`--start-sunday` argument: `none` when absent, `some none` when supplied but
unparsable by `strptime(.., "%Y-%m-%d")` (a `ValueError`, hence
`sys.exit(1)`), and `some (some d)` when it parses to the date of ordinal
`d`.  As in the source, the bitmap is built (and can fail) before the
override date is examined. -/
def mainPlan (message : List Char) (today : ℤ) (override : Option (Option ℤ)) :
    Except MainError (List ℤ) :=
  match build_bitmap message 1 with
  | Except.error c => Except.error (MainError.unsupportedChar c)
  | Except.ok bitmap =>
    match override with
    | none => Except.ok (pixelDates bitmap (default_start_sunday today (total_cols bitmap)))
    | some none => Except.error MainError.invalidDateFormat
    | some (some d) => Except.ok (pixelDates bitmap (explicit_start_sunday d).1)

/-- The commit loop (source lines 191-194): each planned date receives
`commits_per_pixel` commits, in order. -/
def commitDates (dates : List ℤ) (commits_per_pixel : ℕ) : List ℤ :=
  dates.flatMap fun d => List.replicate commits_per_pixel d

/-- Python's `datetime.date(y, m, d).toordinal()` for a valid proleptic
Gregorian date: days in all preceding years, plus days in the preceding
months of year `y`, plus `d`.  Used only to name concrete calendar dates. -/
def isLeap (y : ℕ) : Bool := y % 4 = 0 ∧ (y % 100 ≠ 0 ∨ y % 400 = 0)

/-- Length of month `m` (1..12) of year `y`. -/
def daysInMonth (y m : ℕ) : ℕ :=
  if m = 2 then (if isLeap y then 29 else 28)
  else if m = 4 ∨ m = 6 ∨ m = 9 ∨ m = 11 then 30
  else 31

/-- Days in the months of year `y` strictly before month `m`. -/
def daysBeforeMonth (y m : ℕ) : ℕ :=
  ((List.range (m - 1)).map fun i => daysInMonth y (i + 1)).sum

/-- The proleptic Gregorian ordinal of year `y`, month `m`, day `d`. -/
def toOrdinal (y m d : ℕ) : ℤ :=
  (((y - 1) * 365 + (y - 1) / 4 - (y - 1) / 100 + (y - 1) / 400 + daysBeforeMonth y m + d : ℕ) : ℤ)

/-- The `(row, column)` pairs of on pixels, in the order in which the
scheduling loop of `main` (source lines 170-176) visits them: columns left to
right, rows top to bottom within a column. -/
def onCells (bitmap : List (List Char)) : List (ℕ × ℕ) :=
  (List.range (total_cols bitmap)).flatMap fun col =>
    (List.range 7).filterMap fun row =>
      if pixel_on bitmap row col then some (row, col) else none

/-- Two characters that are equal, or an upper/lowercase pair among the
letters the font aliases (source lines 80-83). -/
def caseSwapped (c c' : Char) : Prop :=
  c = c' ∨
  (c = 'P' ∧ c' = 'p') ∨ (c = 'p' ∧ c' = 'P') ∨
  (c = 'I' ∧ c' = 'i') ∨ (c = 'i' ∧ c' = 'I') ∨
  (c = 'Z' ∧ c' = 'z') ∨ (c = 'z' ∧ c' = 'Z') ∨
  (c = 'A' ∧ c' = 'a') ∨ (c = 'a' ∧ c' = 'A')

/- ### Helper lemmas -/

/-- `get_sunday_of_week` subtracts exactly `d % 7` days: week starts are the
multiples of 7 in ordinal space (ordinal 7 = 0001-01-07 is a Sunday). -/
lemma get_sunday_of_week_eq (d : ℤ) : get_sunday_of_week d = d - d % 7 := by
  unfold get_sunday_of_week weekday
  omega

lemma weekday_get_sunday_of_week (d : ℤ) : weekday (get_sunday_of_week d) = 6 := by
  unfold get_sunday_of_week weekday
  omega

/-- Every pattern stored in the font table has exactly 7 rows of 5 pixels. -/
lemma FONT_shape {c : Char} {g : Glyph} (h : FONT c = some g) :
    g.length = 7 ∧ ∀ r ∈ g, r.length = 5 := by
  unfold FONT at h
  split_ifs at h
  all_goals first
    | exact Option.noConfusion h
    | (injection h with h; subst h; decide)

/-- Appending one pattern column-block to rows of uniform length gives rows of
uniform length. -/
lemma zipWith_append_shape :
    ∀ (rows pat : List (List Char)) (L k : ℕ),
      (∀ r ∈ rows, r.length = L) → (∀ p ∈ pat, p.length = k) →
      ∀ r ∈ List.zipWith (fun a b => a ++ b) rows pat, r.length = L + k := by
  intro rows
  induction rows with
  | nil =>
    intro pat L k _ _ r hr
    simp at hr
  | cons a as ih =>
    intro pat L k hrows hpat r hr
    cases pat with
    | nil => simp at hr
    | cons b bs =>
      simp only [List.zipWith_cons_cons, List.mem_cons] at hr
      rcases hr with rfl | hr
      · simp [hrows a (by simp), hpat b (by simp)]
      · exact ih bs L k (fun r h => hrows r (List.mem_cons_of_mem _ h))
          (fun p h => hpat p (List.mem_cons_of_mem _ h)) r hr

/-- Invariant of the `build_bitmap` loop after the first character: on a
fully supported message, starting from 7 rows of uniform length `L`, it
returns 7 rows of uniform length `L + (5 + gap) * (number of characters)`. -/
lemma build_bitmap_go_shape (gap : ℕ) :
    ∀ (msg : List Char) (rows : List (List Char)) (L : ℕ),
      (∀ c ∈ msg, (FONT c).isSome) → rows.length = 7 → (∀ r ∈ rows, r.length = L) →
      ∃ rows2, build_bitmap_go gap msg rows false = Except.ok rows2 ∧ rows2.length = 7 ∧
        ∀ r ∈ rows2, r.length = L + (5 + gap) * msg.length := by
  intro msg
  induction msg with
  | nil =>
    intro rows L _ h7 hL
    exact ⟨rows, rfl, h7, by simpa using hL⟩
  | cons ch rest ih =>
    intro rows L hsup h7 hL
    obtain ⟨pat, hpat⟩ := Option.isSome_iff_exists.mp (hsup ch (by simp))
    obtain ⟨hpat7, hpat5⟩ := FONT_shape hpat
    have hrows1 : ∀ r ∈ rows.map fun r => r ++ List.replicate gap '0', r.length = L + gap := by
      intro r hr
      obtain ⟨r0, hr0, rfl⟩ := List.mem_map.mp hr
      simp [hL r0 hr0]
    have hrows2 := zipWith_append_shape (rows.map fun r => r ++ List.replicate gap '0') pat
      (L + gap) 5 hrows1 hpat5
    have h7' : (List.zipWith (fun a b => a ++ b)
        (rows.map fun r => r ++ List.replicate gap '0') pat).length = 7 := by
      simp [List.length_zipWith, h7, hpat7]
    obtain ⟨rows3, hgo, h73, hL3⟩ := ih _ (L + gap + 5)
      (fun c hc => hsup c (List.mem_cons_of_mem _ hc)) h7' hrows2
    refine ⟨rows3, ?_, h73, ?_⟩
    · simp only [build_bitmap_go, Bool.false_eq_true, if_false, hpat]
      exact hgo
    · intro r hr
      rw [hL3 r hr]
      simp only [List.length_cons]
      ring

/-- The `build_bitmap` loop fails exactly when some remaining character has
no font entry. -/
lemma build_bitmap_go_error_iff (gap : ℕ) :
    ∀ (msg : List Char) (rows : List (List Char)) (first : Bool),
      (∃ c, build_bitmap_go gap msg rows first = Except.error c) ↔
        ∃ c ∈ msg, FONT c = none := by
  intro msg
  induction msg with
  | nil =>
    intro rows first
    simp [build_bitmap_go]
  | cons ch rest ih =>
    intro rows first
    cases hf : FONT ch with
    | none =>
      simp only [build_bitmap_go, hf]
      exact ⟨fun _ => ⟨ch, by simp, hf⟩, fun _ => ⟨ch, rfl⟩⟩
    | some pat =>
      simp only [build_bitmap_go, hf]
      rw [ih]
      constructor
      · rintro ⟨c, hc, hnone⟩
        exact ⟨c, List.mem_cons_of_mem _ hc, hnone⟩
      · rintro ⟨c, hc, hnone⟩
        rcases List.mem_cons.mp hc with rfl | hc
        · rw [hf] at hnone
          exact Option.noConfusion hnone
        · exact ⟨c, hc, hnone⟩

/-- On a fully supported message `build_bitmap` succeeds. -/
lemma build_bitmap_ok (message : List Char) (gap : ℕ)
    (h : ∀ c ∈ message, (FONT c).isSome) :
    ∃ rows, build_bitmap message gap = Except.ok rows := by
  cases hb : build_bitmap message gap with
  | error c =>
    obtain ⟨c', hc', hnone⟩ := (build_bitmap_go_error_iff gap message _ true).mp ⟨c, hb⟩
    have hc's := h c' hc'
    rw [hnone] at hc's
    simp at hc's
  | ok rows => exact ⟨rows, rfl⟩

/-- A `filterMap` whose function is an if-some-else-none is a `map` after a
`filter`. -/
lemma filterMap_ite_eq_map_filter {α β : Type} (p : α → Bool) (h : α → β) :
    ∀ l : List α,
      l.filterMap (fun x => if p x then some (h x) else none) = (l.filter p).map h := by
  intro l
  induction l with
  | nil => rfl
  | cons a t ih =>
    by_cases hp : p a = true <;>
      simp [List.filterMap_cons, List.filter_cons, hp, ih]

/-- Gluing pairwise-ordered blocks along an increasing index list keeps the
result pairwise-ordered, provided blocks of smaller index sit entirely below
blocks of larger index. -/
lemma pairwise_flatMap_of {α : Type} (R : α → α → Prop) (f : ℕ → List α) :
    ∀ l : List ℕ, l.Pairwise (· < ·) →
      (∀ i, (f i).Pairwise R) →
      (∀ i j, i < j → ∀ a ∈ f i, ∀ b ∈ f j, R a b) →
      (l.flatMap f).Pairwise R := by
  intro l
  induction l with
  | nil =>
    intro _ _ _
    simp
  | cons i t ih =>
    intro hl hf hcross
    obtain ⟨hit, ht⟩ := List.pairwise_cons.mp hl
    rw [List.flatMap_cons, List.pairwise_append]
    refine ⟨hf i, ih ht hf hcross, ?_⟩
    intro a ha b hb
    obtain ⟨j, hj, hbj⟩ := List.mem_flatMap.mp hb
    exact hcross i j (hit j hj) a ha b hbj

/-- One column of the scheduling loop: the dates of the on pixels of column
`col`, rows top to bottom. -/
lemma pixelDates_column_pairwise (bitmap : List (List Char)) (origin : ℤ) (col : ℕ) :
    ((List.range 7).filterMap fun row =>
        if pixel_on bitmap row col then some (origin + 7 * (col : ℤ) + (row : ℤ))
        else none).Pairwise (· < ·) := by
  rw [filterMap_ite_eq_map_filter (fun row => pixel_on bitmap row col)
    (fun row => origin + 7 * (col : ℤ) + (row : ℤ)), List.pairwise_map]
  have hrange : ((List.range 7).filter fun row => pixel_on bitmap row col).Pairwise (· < ·) :=
    List.Pairwise.sublist (List.filter_sublist (List.range 7)) (List.pairwise_lt_range 7)
  exact hrange.imp fun hab => by omega

/-- Membership in one column's date block forces the date into that column's
week. -/
lemma pixelDates_column_mem {bitmap : List (List Char)} {origin : ℤ} {col : ℕ} {a : ℤ}
    (ha : a ∈ (List.range 7).filterMap fun row =>
        if pixel_on bitmap row col then some (origin + 7 * (col : ℤ) + (row : ℤ)) else none) :
    ∃ row : ℕ, row < 7 ∧ a = origin + 7 * (col : ℤ) + (row : ℤ) := by
  rw [filterMap_ite_eq_map_filter (fun row => pixel_on bitmap row col)
    (fun row => origin + 7 * (col : ℤ) + (row : ℤ)), List.mem_map] at ha
  obtain ⟨row, hrow, rfl⟩ := ha
  have : row ∈ List.range 7 := List.mem_filter.mp hrow |>.1
  exact ⟨row, List.mem_range.mp this, rfl⟩

/-- The planned dates are emitted in strictly increasing order. -/
lemma pixelDates_pairwise_lt (bitmap : List (List Char)) (origin : ℤ) :
    (pixelDates bitmap origin).Pairwise (· < ·) := by
  unfold pixelDates
  refine pairwise_flatMap_of _ _ _ (List.pairwise_lt_range _)
    (fun col => pixelDates_column_pairwise bitmap origin col) ?_
  intro i j hij a ha b hb
  obtain ⟨ra, hra, rfl⟩ := pixelDates_column_mem ha
  obtain ⟨rb, hrb, rfl⟩ := pixelDates_column_mem hb
  have hija : (i : ℤ) < (j : ℤ) := by exact_mod_cast hij
  omega

/-- Case-swapped characters have the same font entry, and a missing font
entry forces the characters to be equal (the aliased letters all have
entries). -/
lemma caseSwapped_FONT {c c' : Char} (h : caseSwapped c c') :
    FONT c = FONT c' ∧ (FONT c = none → c = c') := by
  rcases h with rfl | h | h | h | h | h | h | h | h
  · exact ⟨rfl, fun _ => rfl⟩
  all_goals obtain ⟨rfl, rfl⟩ := h
  all_goals exact ⟨by decide, by decide⟩

/-- The `build_bitmap` loop is insensitive to swapping the case of aliased
letters in the remaining message. -/
lemma build_bitmap_go_caseSwapped (gap : ℕ) {m1 m2 : List Char}
    (h : List.Forall₂ caseSwapped m1 m2) :
    ∀ rows first, build_bitmap_go gap m1 rows first = build_bitmap_go gap m2 rows first := by
  induction h with
  | nil =>
    intro rows first
    rfl
  | cons hab htail ih =>
    intro rows first
    obtain ⟨hfont, hnone⟩ := caseSwapped_FONT hab
    simp only [build_bitmap_go, hfont]
    cases hf : FONT _ with
    | none => rw [hnone (hfont.trans hf)]
    | some pat => exact ih _ false

/-- Unfolding `build_bitmap` one step on a nonempty message: no gap is
inserted before the first character. -/
lemma build_bitmap_cons (gap : ℕ) (ch : Char) (rest : List Char) :
    build_bitmap (ch :: rest) gap =
      match FONT ch with
      | none => Except.error ch
      | some pat =>
          build_bitmap_go gap rest
            (List.zipWith (fun a b => a ++ b) (List.replicate 7 []) pat) false := rfl

/- ### Claim theorems -/

/-- C1: a date `d` is emitted by the scheduling loop exactly when `d` lies at
or after the origin and the cell recovered from `d - origin` by division and
remainder by 7 (remainder = row, quotient = column, with the column within
the bitmap width) is an on pixel; in particular the emitted set is
`{origin + 7c + r : bitmap[r][c] on, c < W, r < 7}`. -/
theorem pixel_dates_set_characterization (bitmap : List (List Char)) (origin d : ℤ) :
    d ∈ pixelDates bitmap origin ↔
      0 ≤ d - origin ∧ ((d - origin) / 7).toNat < total_cols bitmap ∧
        pixel_on bitmap ((d - origin) % 7).toNat ((d - origin) / 7).toNat = true := by
  unfold pixelDates
  rw [List.mem_flatMap]
  constructor
  · rintro ⟨col, hcol, hd⟩
    rw [List.mem_range] at hcol
    rw [List.mem_filterMap] at hd
    obtain ⟨row, hrow, hif⟩ := hd
    rw [List.mem_range] at hrow
    by_cases hp : pixel_on bitmap row col = true
    · rw [if_pos hp] at hif
      have hd' : origin + 7 * (col : ℤ) + (row : ℤ) = d := Option.some.inj hif
      have hc : ((d - origin) / 7).toNat = col := by omega
      have hr : ((d - origin) % 7).toNat = row := by omega
      refine ⟨by omega, ?_, ?_⟩
      · rw [hc]
        exact hcol
      · rw [hc, hr]
        exact hp
    · rw [if_neg hp] at hif
      exact Option.noConfusion hif
  · rintro ⟨hge, hcol, hp⟩
    refine ⟨((d - origin) / 7).toNat, ?_, ?_⟩
    · rw [List.mem_range]
      exact hcol
    · rw [List.mem_filterMap]
      refine ⟨((d - origin) % 7).toNat, ?_, ?_⟩
      · rw [List.mem_range]
        omega
      · rw [if_pos hp]
        congr 1
        omega

/-- C2: with no explicit start date, the origin is the Sunday of the anchor
week moved left by `W - 1` weeks: it falls on a Sunday, and the week start
of `origin + (W - 1)` weeks is exactly the week start of the anchor date. -/
theorem default_origin_right_aligned (today : ℤ) (W : ℕ) :
    weekday (default_start_sunday today W) = 6 ∧
    get_sunday_of_week (default_start_sunday today W + 7 * ((W : ℤ) - 1)) =
      get_sunday_of_week today := by
  unfold default_start_sunday get_sunday_of_week weekday
  constructor
  · omega
  · omega

/-- C3: an explicit start date that is not a Sunday is snapped to the unique
Sunday among the 6 days strictly before it (the most recent prior Sunday)
and the warning fires; an explicit Sunday is used unchanged with no
warning. -/
theorem explicit_start_snaps_to_previous_sunday (d : ℤ) :
    (weekday d ≠ 6 →
      weekday (explicit_start_sunday d).1 = 6 ∧
      (explicit_start_sunday d).1 < d ∧
      d - 7 < (explicit_start_sunday d).1 ∧
      (∀ s : ℤ, weekday s = 6 → s < d → s ≤ (explicit_start_sunday d).1) ∧
      (explicit_start_sunday d).2 = true) ∧
    (weekday d = 6 → explicit_start_sunday d = (d, false)) := by
  simp only [explicit_start_sunday, get_sunday_of_week, weekday]
  split_ifs with hc
  · dsimp only
    exact ⟨fun _ => ⟨by omega, by omega, by omega, fun s hs hlt => by omega, rfl⟩,
      fun h => absurd h hc⟩
  · dsimp only
    exact ⟨fun h => absurd h hc, fun _ => rfl⟩

/-- Concrete instance of the snapping theorem: ordinal 3 (0001-01-03, a
Wednesday) snaps to ordinal 0, a Sunday strictly before it. -/
theorem explicit_start_snaps_witness :
    weekday (explicit_start_sunday 3).1 = 6 ∧ (explicit_start_sunday 3).1 < 3 ∧
      (explicit_start_sunday 3).2 = true := by
  obtain ⟨h1, h2, _, _, h5⟩ := (explicit_start_snaps_to_previous_sunday 3).1 (by decide)
  exact ⟨h1, h2, h5⟩

/-- C4: on a message all of whose characters have font entries,
`build_bitmap` succeeds with exactly 7 rows, each of length
`5 * len + (len - 1)` for gap 1. -/
theorem build_bitmap_dimensions (message : List Char)
    (h : ∀ c ∈ message, (FONT c).isSome) :
    ∃ rows, build_bitmap message 1 = Except.ok rows ∧ rows.length = 7 ∧
      ∀ r ∈ rows, r.length = 5 * message.length + (message.length - 1) := by
  cases message with
  | nil =>
    refine ⟨List.replicate 7 [], rfl, by simp, ?_⟩
    intro r hr
    rw [List.eq_of_mem_replicate hr]
    simp
  | cons ch rest =>
    obtain ⟨pat, hpat⟩ := Option.isSome_iff_exists.mp (h ch (by simp))
    obtain ⟨hpat7, hpat5⟩ := FONT_shape hpat
    have hrows2 := zipWith_append_shape (List.replicate 7 []) pat 0 5
      (by intro r hr; rw [List.eq_of_mem_replicate hr]; rfl) hpat5
    have h7' : (List.zipWith (fun a b => a ++ b)
        (List.replicate 7 ([] : List Char)) pat).length = 7 := by
      simp [List.length_zipWith, hpat7]
    obtain ⟨rows2, hgo, h72, hL2⟩ := build_bitmap_go_shape 1 rest _ 5
      (fun c hc => h c (List.mem_cons_of_mem _ hc)) h7' (by simpa using hrows2)
    refine ⟨rows2, ?_, h72, ?_⟩
    · rw [build_bitmap_cons, hpat]
      exact hgo
    · intro r hr
      rw [hL2 r hr]
      simp only [List.length_cons]
      omega

/-- Concrete instance: the hardcoded message builds a 7-row bitmap whose
rows all have length `5 * 6 + 5 = 35`. -/
theorem build_bitmap_dimensions_witness :
    ∃ rows, build_bitmap MESSAGE 1 = Except.ok rows ∧ rows.length = 7 ∧
      ∀ r ∈ rows, r.length = 5 * MESSAGE.length + (MESSAGE.length - 1) :=
  build_bitmap_dimensions MESSAGE (by decide)

/-- C5: `build_bitmap` fails exactly when some character of the message has
no font entry, and such a failure makes the planning phase of `main` abort
before any date is scheduled (the plan is an error, not a date list). -/
theorem unsupported_character_iff (message : List Char) :
    ((∃ c ∈ message, FONT c = none) ↔ ∃ c, build_bitmap message 1 = Except.error c) ∧
    ∀ c (today : ℤ) override, build_bitmap message 1 = Except.error c →
      mainPlan message today override = Except.error (MainError.unsupportedChar c) := by
  constructor
  · exact (build_bitmap_go_error_iff 1 message (List.replicate 7 []) true).symm
  · intro c today override hb
    unfold mainPlan
    rw [hb]

/-- Concrete instance: the message "Q" has no glyph for `Q`, and planning
aborts with the unsupported-character error. -/
theorem unsupported_character_iff_witness :
    mainPlan ['Q'] 0 none = Except.error (MainError.unsupportedChar 'Q') :=
  (unsupported_character_iff ['Q']).2 'Q' 0 none rfl

/-- C6: an unparsable `--start-sunday` string (modelled as `some none`)
makes the planning phase abort with the invalid-date error, so no commit
dates are produced; this holds for every anchor date and every supported
message, in particular the script's. -/
theorem malformed_start_date_aborts (message : List Char) (today : ℤ)
    (h : ∀ c ∈ message, (FONT c).isSome) :
    mainPlan message today (some none) = Except.error MainError.invalidDateFormat := by
  obtain ⟨rows, hrows⟩ := build_bitmap_ok message 1 h
  unfold mainPlan
  rw [hrows]

/-- Concrete instance: the hardcoded message with an unparsable override
aborts with the invalid-date error. -/
theorem malformed_start_date_aborts_witness :
    mainPlan MESSAGE 738892 (some none) = Except.error MainError.invalidDateFormat :=
  malformed_start_date_aborts MESSAGE 738892 (by decide)

/-- C7, counterexample: with the single glyph "A" and origin Sunday
2024-01-07 (ordinal 738892), the loop also emits 2024-01-10 — a date
strictly after 2024-01-09 — so the emitted set is not
"2024-01-08 through 2024-01-09". -/
theorem example_A_dates_counterexample :
    build_bitmap ['A'] 1 = Except.ok glyphA ∧
    toOrdinal 2024 1 10 ∈ pixelDates glyphA (toOrdinal 2024 1 7) ∧
    toOrdinal 2024 1 9 < toOrdinal 2024 1 10 :=
  ⟨rfl, by decide, by decide⟩

/-- C7, amended: message "A" with origin Sunday 2024-01-07 emits, in the
loop's column-major order, exactly the 18 dates of the on cells of the
pattern: 2024-01-08 .. 2024-01-13 (column 0), 2024-01-14 and 2024-01-17
(column 1), 2024-01-21 and 2024-01-24 (column 2), 2024-01-28 and 2024-01-31
(column 3), and 2024-02-05 .. 2024-02-10 (column 4). -/
theorem example_A_dates :
    build_bitmap ['A'] 1 = Except.ok glyphA ∧
    weekday (toOrdinal 2024 1 7) = 6 ∧
    pixelDates glyphA (toOrdinal 2024 1 7) =
      [toOrdinal 2024 1 8, toOrdinal 2024 1 9, toOrdinal 2024 1 10, toOrdinal 2024 1 11,
       toOrdinal 2024 1 12, toOrdinal 2024 1 13, toOrdinal 2024 1 14, toOrdinal 2024 1 17,
       toOrdinal 2024 1 21, toOrdinal 2024 1 24, toOrdinal 2024 1 28, toOrdinal 2024 1 31,
       toOrdinal 2024 2 5, toOrdinal 2024 2 6, toOrdinal 2024 2 7, toOrdinal 2024 2 8,
       toOrdinal 2024 2 9, toOrdinal 2024 2 10] :=
  ⟨rfl, by decide, by decide⟩

/-- C8: the emitted sequence is exactly the column-major enumeration of the
on cells, mapped through `origin + 7 * column + row`; the cell enumeration
is strictly increasing in the column-major (lexicographic column-then-row)
order, and no date occurs twice.  Both `pixelDates` and `onCells` are pure
functions of the bitmap and origin, so two runs on the same inputs yield
the same sequence. -/
theorem pixel_dates_column_major_order (bitmap : List (List Char)) (origin : ℤ) :
    pixelDates bitmap origin =
      (onCells bitmap).map (fun rc => origin + 7 * (rc.2 : ℤ) + (rc.1 : ℤ)) ∧
    (onCells bitmap).Pairwise
      (fun p q => p.2 < q.2 ∨ (p.2 = q.2 ∧ p.1 < q.1)) ∧
    (pixelDates bitmap origin).Nodup := by
  refine ⟨?_, ?_, ?_⟩
  · unfold pixelDates onCells
    rw [List.map_flatMap]
    apply List.flatMap_congr
    intro col _
    rw [List.map_filterMap]
    apply List.filterMap_congr
    intro row _
    by_cases hp : pixel_on bitmap row col = true <;> simp [hp]
  · unfold onCells
    refine pairwise_flatMap_of _ _ _ (List.pairwise_lt_range _) ?_ ?_
    · intro col
      rw [filterMap_ite_eq_map_filter (fun row => pixel_on bitmap row col)
        (fun row => (row, col)), List.pairwise_map]
      have hrange : ((List.range 7).filter
          fun row => pixel_on bitmap row col).Pairwise (· < ·) :=
        List.Pairwise.sublist (List.filter_sublist (List.range 7)) (List.pairwise_lt_range 7)
      exact hrange.imp fun hab => Or.inr ⟨rfl, hab⟩
    · intro i j hij a ha b hb
      rw [filterMap_ite_eq_map_filter (fun row => pixel_on bitmap row i)
        (fun row => (row, i)), List.mem_map] at ha
      rw [filterMap_ite_eq_map_filter (fun row => pixel_on bitmap row j)
        (fun row => (row, j)), List.mem_map] at hb
      obtain ⟨ra, _, rfl⟩ := ha
      obtain ⟨rb, _, rfl⟩ := hb
      exact Or.inl hij
  · exact (pixelDates_pairwise_lt bitmap origin).imp fun hab => ne_of_lt hab

/-- C9: the font aliases each of `p`, `i`, `z`, `a` to the uppercase glyph,
so `build_bitmap` yields identical bitmaps on any two messages related by
swapping the case of letters within {P, I, Z, A, p, i, z, a}. -/
theorem font_lowercase_aliases :
    (FONT 'p' = FONT 'P' ∧ FONT 'i' = FONT 'I' ∧ FONT 'z' = FONT 'Z' ∧ FONT 'a' = FONT 'A') ∧
    ∀ (m1 m2 : List Char) (gap : ℕ), List.Forall₂ caseSwapped m1 m2 →
      build_bitmap m1 gap = build_bitmap m2 gap := by
  refine ⟨⟨by decide, by decide, by decide, by decide⟩, ?_⟩
  intro m1 m2 gap h
  exact build_bitmap_go_caseSwapped gap h _ true

/-- Concrete instance: the all-uppercase and all-lowercase spellings of the
message build the same bitmap. -/
theorem font_lowercase_aliases_witness :
    build_bitmap ['P', 'I', 'Z', 'Z', 'A', '!'] 1 =
      build_bitmap ['p', 'i', 'z', 'z', 'a', '!'] 1 :=
  font_lowercase_aliases.2 _ _ 1
    (List.Forall₂.cons (by simp [caseSwapped]) (List.Forall₂.cons (by simp [caseSwapped])
      (List.Forall₂.cons (by simp [caseSwapped]) (List.Forall₂.cons (by simp [caseSwapped])
        (List.Forall₂.cons (by simp [caseSwapped])
          (List.Forall₂.cons (by simp [caseSwapped]) List.Forall₂.nil))))))

/-- C10: the emitted date list is strictly increasing chronologically, so in
particular no date appears twice in the planned sequence (any repetition in
the commit stream comes from the commits-per-pixel multiplier alone). -/
theorem pixel_dates_strictly_increasing (bitmap : List (List Char)) (origin : ℤ) :
    (pixelDates bitmap origin).Pairwise (· < ·) ∧ (pixelDates bitmap origin).Nodup :=
  ⟨pixelDates_pairwise_lt bitmap origin,
   (pixelDates_pairwise_lt bitmap origin).imp fun hab => ne_of_lt hab⟩

end GeneratePizza
